import Mathlib

/-!
Verification of the LLM generation/judge pipeline of the
python-requests-playwright-mcp-promptfoo repository.

Strings are modelled as `List Char`.  The Python text-processing helpers
(`str.strip`, `re.sub(r"-{2,}\s*", " ", ·)`, `re.sub(r"\s+", " ", ·)`,
`str.rsplit(" ", 1)[0]`) are embedded as structural recursions so that every
definition is executable by the kernel.  Rational numbers stand in for the
(small, exactly-representable) Python floats used by the scoring code.
-/

/-! ## Character classes (Python `\s`, `str.strip` whitespace, ASCII case) -/

/-- Python whitespace (`\s`, `str.strip()` default), restricted to ASCII. -/
def pyIsSpace (c : Char) : Bool :=
  c = ' ' || c = '\t' || c = '\n' || c = '\r' || c = Char.ofNat 11 || c = Char.ofNat 12

/-- ASCII `str.upper` on one character. -/
def asciiUpper (c : Char) : Char :=
  if 'a' ≤ c ∧ c ≤ 'z' then Char.ofNat (c.toNat - 32) else c

/-- ASCII `str.lower` on one character. -/
def asciiLower (c : Char) : Char :=
  if 'A' ≤ c ∧ c ≤ 'Z' then Char.ofNat (c.toNat + 32) else c

/-- ASCII letter test (the regex class `[A-Za-z]`). -/
def isAsciiAlpha (c : Char) : Bool :=
  ('A' ≤ c && c ≤ 'Z') || ('a' ≤ c && c ≤ 'z')

/-- `str.lower` over a whole string. -/
def lowerList (l : List Char) : List Char := l.map asciiLower

/-! ## `str.strip()` -/

/-- Remove trailing whitespace (`str.rstrip()`). -/
def stripRight (l : List Char) : List Char :=
  (l.reverse.dropWhile pyIsSpace).reverse

/-- Python `str.strip()`: drop leading and trailing whitespace. -/
def stripList (l : List Char) : List Char :=
  stripRight (l.dropWhile pyIsSpace)

/-! ## `re.sub(r"\s+", " ", ·)`

`collapseWsAux b l` scans `l` left to right; the flag `b` records whether the
scanner is inside a whitespace run whose single replacement `' '` has already
been emitted. -/

def collapseWsAux : Bool → List Char → List Char
  | _, [] => []
  | prevSpace, c :: cs =>
    if pyIsSpace c then
      if prevSpace then collapseWsAux true cs
      else ' ' :: collapseWsAux true cs
    else c :: collapseWsAux false cs

/-- `re.sub(r"\s+", " ", l)`: collapse every whitespace run to one space. -/
def collapseWs (l : List Char) : List Char := collapseWsAux false l

/-! ## `re.sub(r"-{2,}\s*", " ", ·)`

The regex engine scans left to right; a match consumes a maximal run of two or
more dashes and then any following whitespace, and is replaced by one space.
`CdSt` is the scanner state: `normal` outside a match, `dash` while consuming
the remaining dashes of a match, `ws` while consuming the trailing `\s*`. -/

inductive CdSt
  | normal
  | dash
  | ws
deriving DecidableEq

def cdAux : CdSt → List Char → List Char
  | _, [] => []
  | CdSt.dash, c :: cs =>
    if c = '-' then cdAux CdSt.dash cs
    else if pyIsSpace c then cdAux CdSt.ws cs
    else c :: cdAux CdSt.normal cs
  | CdSt.ws, c :: cs =>
    if pyIsSpace c then cdAux CdSt.ws cs
    else if c = '-' ∧ cs.head? = some '-' then ' ' :: cdAux CdSt.dash cs
    else c :: cdAux CdSt.normal cs
  | CdSt.normal, c :: cs =>
    if c = '-' ∧ cs.head? = some '-' then ' ' :: cdAux CdSt.dash cs
    else c :: cdAux CdSt.normal cs

/-- `re.sub(r"-{2,}\s*", " ", l)`. -/
def collapseDashes (l : List Char) : List Char := cdAux CdSt.normal l

/-! ## `s.rsplit(" ", 1)[0]` -/

/-- Everything before the last literal `' '`, or the whole list if none. -/
def rsplitPre : List Char → List Char
  | [] => []
  | c :: cs =>
    if ' ' ∈ cs then c :: rsplitPre cs
    else if c = ' ' then []
    else c :: cs

/-! ## The output normalizer

Embeds the inline cleanup of `test_article_generation.py` (lines 73-85):

    output = result.output.strip()
    output = re.sub(r"-\x7b2,\x7d\s*", " ", output)
    output = re.sub(r"\s+", " ", output).strip()
    if len(output) > 500:
        output = output[:500].rsplit(" ", 1)[0].strip()

generalized over the length limit `L` (the code instantiates `L = 500`). -/

/-- The cleaned (dash-collapsed, whitespace-collapsed, trimmed) form. -/
def cleanText (s : List Char) : List Char :=
  stripList (collapseWs (collapseDashes (stripList s)))

/-- The output normalizer `normalize(raw, max_len)`. -/
def normalizeOut (s : List Char) (L : Nat) : List Char :=
  let c := cleanText s
  if c.length > L then stripList (rsplitPre (c.take L)) else c

/-- `r` stops at a word boundary of `c`: it is a prefix of `c` and either all
of `c` or followed in `c` by a space. -/
def endsAtWordBoundary (r c : List Char) : Prop :=
  r <+: c ∧ (r.length = c.length ∨ c.get? r.length = some ' ')

instance (r c : List Char) : Decidable (endsAtWordBoundary r c) := by
  unfold endsAtWordBoundary; infer_instance

/-! Invariants of cleaned text, used for the idempotence proof. -/

/-- No two adjacent whitespace characters. -/
def NoTwoSpaces (l : List Char) : Prop :=
  List.Chain' (fun a b => ¬(pyIsSpace a = true ∧ pyIsSpace b = true)) l

/-- Every whitespace character is the plain space `' '`. -/
def OnlyPlainSpace (l : List Char) : Prop :=
  ∀ c ∈ l, pyIsSpace c = true → c = ' '

/-- No two adjacent dashes. -/
def NoDashPair (l : List Char) : Prop :=
  List.Chain' (fun a b => ¬(a = '-' ∧ b = '-')) l

/-! ## Topic coverage scorer

Embeds `calculate_topic_coverage` of `test_article_quality_audit.py` and the
inline keyword gate of `test_article_generation.py`.  `re.findall(r"[A-Za-z]+",
topic)` is the list of maximal ASCII-alphabetic runs. -/

/-- Maximal runs of `[A-Za-z]` characters (`re.findall(r"[A-Za-z]+", ·)`). -/
def alphaRuns : List Char → List (List Char)
  | [] => []
  | c :: cs =>
    if isAsciiAlpha c then
      match alphaRuns cs, cs.head? with
      | run :: rest, some d =>
        if isAsciiAlpha d then (c :: run) :: rest else [c] :: run :: rest
      | runs, _ => [c] :: runs
    else alphaRuns cs

/-- The deduplicated, lower-cased topic keywords of length `> 3`:
`{term.lower() for term in re.findall(r"[A-Za-z]+", topic) if len(term) > 3}`. -/
def topicTerms (topic : List Char) : List (List Char) :=
  (((alphaRuns topic).filter (fun t => t.length > 3)).map lowerList).dedup

/-- The keywords of `topic` that occur as substrings of `output.lower()`. -/
def matchedTerms (output topic : List Char) : List (List Char) :=
  (topicTerms topic).filter (fun t => t <:+: lowerList output)

/-- `calculate_topic_coverage(output, topic)` (floats modelled as `ℚ`). -/
def calculate_topic_coverage (output topic : List Char) : ℚ :=
  if topicTerms topic = [] then 1
  else ((matchedTerms output topic).length : ℚ) / ((topicTerms topic).length : ℚ)

/-! ## Audit rows and failure-reason precedence

Embeds the `AuditResult` dataclass and `assess_failure_reason` of
`test_article_quality_audit.py`.  The interpolated reason strings are modelled
by their tags. -/

inductive FailureReason
  | too_short
  | too_long
  | off_topic
  | judge_rejected
deriving DecidableEq

structure AuditResult where
  iteration : Nat
  model : List Char
  scenario_id : List Char
  output : List Char
  length : Nat
  topic_coverage : ℚ
  judge_pass : Bool
  judge_reasoning : List Char

/-- `assess_failure_reason(result, min_length, max_length)`
(the code calls it with `min_length=300, max_length=500`). -/
def assess_failure_reason (result : AuditResult) (min_length max_length : Nat) :
    Option FailureReason :=
  if result.length < min_length then some FailureReason.too_short
  else if result.length > max_length then some FailureReason.too_long
  else if result.topic_coverage < 1/2 then some FailureReason.off_topic
  else if result.judge_pass = false then some FailureReason.judge_rejected
  else none

/-! ## Audit aggregation and top-level pass/fail policy

Embeds the per-model summary computation (lines 246-266) and the
cautionary/failing classification (lines 334-356) of
`test_article_quality_audit.py`.  `MIN_ACCEPTABLE_SUCCESS_RATE = 0.4`. -/

structure ModelAuditSummary where
  model : List Char
  total_runs : Nat
  successful_runs : Nat
  failed_runs : Nat
  success_rate : ℚ

/-- A run succeeds when its assessed failure reason is `None`. -/
def auditRunSucceeds (r : AuditResult) : Bool :=
  assess_failure_reason r 300 500 = none

/-- Per-model summary over that model's audit rows. -/
def mkSummary (model : List Char) (results : List AuditResult) : ModelAuditSummary :=
  let successful := results.filter auditRunSucceeds
  let failed := results.filter (fun r => ¬ auditRunSucceeds r)
  { model := model
    total_runs := results.length
    successful_runs := successful.length
    failed_runs := failed.length
    success_rate :=
      if results.length = 0 then 0
      else (successful.length : ℚ) / (results.length : ℚ) }

/-- Classification loop of lines 334-341: returns
`(cautionary_models, failing_models)` in input order. -/
def classifyAudit : List ModelAuditSummary → List ModelAuditSummary × List ModelAuditSummary
  | [] => ([], [])
  | s :: rest =>
    let (caut, fail) := classifyAudit rest
    if s.successful_runs = 0 then (caut, s :: fail)
    else if s.success_rate < 2/5 then (s :: caut, fail)
    else (caut, fail)

/-- Lines 352-356: `pytest.fail` fires exactly when `failing_models` is
nonempty. -/
def auditHardFail (summaries : List ModelAuditSummary) : Bool :=
  ¬ (classifyAudit summaries).2.isEmpty

/-! ## Judge verdict (`OllamaRunner.evaluate_with_judge`)

Embeds `src/utils/ollama_client.py` lines 92-116.  The judge model's raw reply
(produced by `self.generate` on the constructed review prompt) is an input;
`stubText` stands for the hash-derived offline reply
`f"PASS stub-{digest[:6]}"`. -/

/-- First whitespace-delimited token (`s.split()[0]`) of a stripped string,
upper-cased; `[]` when the string is empty. -/
def firstTokenUpper (t : List Char) : List Char :=
  ((t.dropWhile pyIsSpace).takeWhile (fun c => ¬ pyIsSpace c)).map asciiUpper

/-- `evaluate_with_judge`: in fake mode the verdict is unconditionally `true`
with the stub text; in real mode the verdict is `true` iff the first token of
the stripped judge reply, upper-cased, is exactly `"PASS"`. -/
def evaluate_with_judge (fake : Bool) (stubText judgeReply : List Char) :
    Bool × List Char :=
  if fake then (true, stubText)
  else
    let decision_text := stripList judgeReply
    (firstTokenUpper decision_text = "PASS".toList, decision_text)

/-! ## The attempt controller (`test_local_article_generation`)

Embeds the per-scenario/model loop of `test_article_generation.py`
(lines 51-140).  The external collaborators are abstracted as deterministic
functions:

* `gen seed num_predict temperature` — the generation service's output for the
  fixed (model, prompt) of the run;
* `judgeReply article seed` — the judge model's raw reply for the review
  prompt built from `article` (topic fixed for the run);
* `stubJudgeText` — the offline judge stub text;
* the `hash` argument of the top-level run models
  `int(hashlib.md5(key.encode()).hexdigest()[:8], 16)`. -/

structure Services where
  gen : Nat → Nat → ℚ → List Char
  judgeReply : List Char → Nat → List Char
  stubJudgeText : List Char

structure JudgeCallRec where
  seed : Nat
  pass : Bool
  text : List Char
deriving DecidableEq

inductive AttemptOutcome
  | tooShort
  | offTopic
  | judged
deriving DecidableEq

structure AttemptRecord where
  index : Nat
  seed : Nat
  outLength : Nat
  outcome : AttemptOutcome
  judge1 : Option JudgeCallRec
  judge2 : Option JudgeCallRec
  accepted : Bool
deriving DecidableEq

structure RunResult where
  success : Bool
  stabilized : Bool
  acceptedOutput : Option (List Char)
  trace : List AttemptRecord
  genCalls : Nat
  judgeCalls : Nat

/-- Number of judge-service calls recorded for one attempt. -/
def recJudgeCount (rec : AttemptRecord) : Nat :=
  (if rec.judge1.isSome then 1 else 0) + (if rec.judge2.isSome then 1 else 0)

/-- One attempt of the controller loop body: generate with seed
`seed_base + index`, normalize to 500 characters, apply the length gate, the
topic-coverage gate, then the judge gate with seed `seed_base + 97`, with the
single live-mode re-evaluation at seed `seed_base + 197` on a judge rejection.
Returns the attempt record together with the normalized output. -/
def attemptStep (fake : Bool) (sv : Services) (topic : List Char)
    (seedBase index num_predict : Nat) (temp : ℚ) : AttemptRecord × List Char :=
  let seed := seedBase + index
  let output := normalizeOut (sv.gen seed num_predict temp) 500
  let len := output.length
  if len < 300 then
    (⟨index, seed, len, AttemptOutcome.tooShort, none, none, false⟩, output)
  else
    let terms := topicTerms topic
    let required := if terms.length ≤ 1 then 1 else min 2 terms.length
    if terms ≠ [] ∧ (matchedTerms output topic).length < required then
      (⟨index, seed, len, AttemptOutcome.offTopic, none, none, false⟩, output)
    else
      let j1 := evaluate_with_judge fake sv.stubJudgeText (sv.judgeReply output (seedBase + 97))
      if j1.1 then
        (⟨index, seed, len, AttemptOutcome.judged,
          some ⟨seedBase + 97, true, j1.2⟩, none, true⟩, output)
      else if fake = false then
        let j2 := evaluate_with_judge fake sv.stubJudgeText (sv.judgeReply output (seedBase + 197))
        (⟨index, seed, len, AttemptOutcome.judged,
          some ⟨seedBase + 97, false, j1.2⟩, some ⟨seedBase + 197, j2.1, j2.2⟩, j2.1⟩, output)
      else
        (⟨index, seed, len, AttemptOutcome.judged,
          some ⟨seedBase + 97, false, j1.2⟩, none, false⟩, output)

/-- Whether an accepted attempt was accepted through the re-evaluation
(`stabilized` flag of the source loop). -/
def recStabilized (rec : AttemptRecord) : Bool :=
  match rec.judge2 with
  | some c => c.pass
  | none => false

/-- The attempt loop over the remaining `(num_predict, temperature)` configs,
`index` being the 1-based position of the first of them.  Stops at the first
accepted attempt; otherwise records the attempt and continues. -/
def runFrom (fake : Bool) (sv : Services) (topic : List Char) (seedBase : Nat) :
    List (Nat × ℚ) → Nat → RunResult
  | [], _ => ⟨false, false, none, [], 0, 0⟩
  | (num_predict, temp) :: rest, index =>
    let step := attemptStep fake sv topic seedBase index num_predict temp
    if step.1.accepted then
      ⟨true, recStabilized step.1, some step.2, [step.1], 1, recJudgeCount step.1⟩
    else
      let r := runFrom fake sv topic seedBase rest (index + 1)
      ⟨r.success, r.stabilized, r.acceptedOutput, step.1 :: r.trace,
        r.genCalls + 1, recJudgeCount step.1 + r.judgeCalls⟩

/-- The attempt-parameter schedule (lines 51-59): one deterministic attempt in
fake mode, four live attempts otherwise. -/
def attemptConfigs (fake : Bool) : List (Nat × ℚ) :=
  if fake then [(120, 0)]
  else [(180, 1/4), (160, 1/5), (200, 3/20), (140, 1/10)]

/-- `seed_base = int(hashlib.md5(f"{scenario_id}::{model}".encode()).hexdigest()[:8], 16)`,
with the stdlib md5-hex-prefix composite injected as `hash`. -/
def seedBaseOf (hash : List Char → Nat) (scenario_id model : List Char) : Nat :=
  hash (scenario_id ++ "::".toList ++ model)

/-- One full Attempt Controller run for a (scenario, model) pair. -/
def runController (hash : List Char → Nat) (fake : Bool) (sv : Services)
    (scenario_id model topic : List Char) : RunResult :=
  runFrom fake sv topic (seedBaseOf hash scenario_id model) (attemptConfigs fake) 1

/-- Concrete services whose generator always returns the empty string (every
attempt is rejected as too short). -/
def svShort : Services := ⟨fun _ _ _ => [], fun _ _ => [], []⟩

/-- Concrete services for a stabilization run: the generator emits 300
characters, the judge fails at seed offset 97 and passes at offset 197. -/
def svStab : Services :=
  ⟨fun _ _ _ => List.replicate 300 'a',
   fun _ seed => if seed = 197 then "PASS ok".toList else "FAIL no".toList,
   "PASS stub".toList⟩

/-! # Theorems -/

/-! ## Basic facts about the string helpers -/

theorem rsplitPre_prefix_self (l : List Char) : rsplitPre l <+: l := by
  induction l with
  | nil => simp [rsplitPre]
  | cons c cs ih =>
    simp only [rsplitPre]
    split
    · exact (List.cons_prefix_cons).2 ⟨rfl, ih⟩
    · split
      · exact List.nil_prefix
      · exact List.prefix_refl _

theorem rsplitPre_length_le (l : List Char) : (rsplitPre l).length ≤ l.length :=
  (rsplitPre_prefix_self l).length_le

theorem stripRight_length_le (l : List Char) : (stripRight l).length ≤ l.length := by
  have h := (List.dropWhile_suffix (l := l.reverse) pyIsSpace).length_le
  simpa [stripRight] using h

theorem stripList_length_le (l : List Char) : (stripList l).length ≤ l.length :=
  le_trans (stripRight_length_le _) (List.dropWhile_suffix pyIsSpace).length_le

/-! ## Claim C5: normalizer length bound -/

theorem normalizeOut_length_le (s : List Char) (L : Nat) :
    (normalizeOut s L).length ≤ L := by
  by_cases h : (cleanText s).length > L
  · rw [normalizeOut]
    simp only [if_pos h]
    calc (stripList (rsplitPre ((cleanText s).take L))).length
        ≤ (rsplitPre ((cleanText s).take L)).length := stripList_length_le _
      _ ≤ ((cleanText s).take L).length := rsplitPre_length_le _
      _ ≤ L := by simp
  · rw [normalizeOut]
    simp only [if_neg h]
    omega

/-- Claim C5: for every input string `s` and limit `L`, the output normalizer
returns a string of length at most `L`: `len(normalize(s, L)) <= L` (the code
instantiates `L = 500`). -/
theorem claim_C5_normalizer_length_bound (s : List Char) (L : Nat) :
    (normalizeOut s L).length ≤ L :=
  normalizeOut_length_le s L

/-! ## Claim C4: failure-reason precedence -/

/-- Claim C4: `assess_failure_reason` assigns the failure reason by the fixed
precedence too-short → too-long → off-topic → judge-rejected, returns `none`
exactly when all gates pass, and in particular reports `too_short` (not
`off_topic`) for a result that is both too short and off topic. -/
theorem claim_C4_failure_precedence (r : AuditResult) (minL maxL : Nat) :
    (r.length < minL → assess_failure_reason r minL maxL = some FailureReason.too_short) ∧
    (minL ≤ r.length → maxL < r.length →
      assess_failure_reason r minL maxL = some FailureReason.too_long) ∧
    (minL ≤ r.length → r.length ≤ maxL → r.topic_coverage < 1/2 →
      assess_failure_reason r minL maxL = some FailureReason.off_topic) ∧
    (minL ≤ r.length → r.length ≤ maxL → 1/2 ≤ r.topic_coverage → r.judge_pass = false →
      assess_failure_reason r minL maxL = some FailureReason.judge_rejected) ∧
    (assess_failure_reason r minL maxL = none ↔
      minL ≤ r.length ∧ r.length ≤ maxL ∧ 1/2 ≤ r.topic_coverage ∧ r.judge_pass = true) ∧
    (r.length < minL → r.topic_coverage < 1/2 →
      assess_failure_reason r minL maxL = some FailureReason.too_short) := by
  unfold assess_failure_reason
  refine ⟨?_, ?_, ?_, ?_, ?_, ?_⟩ <;> (try intros) <;>
    split_ifs <;> simp_all <;> first | omega | linarith

/-- Witness for C4 at a concrete audit row that is both too short and off
topic. -/
theorem claim_C4_witness :
    assess_failure_reason ⟨1, [], [], [], 10, 0, false, []⟩ 300 500 =
      some FailureReason.too_short :=
  (claim_C4_failure_precedence ⟨1, [], [], [], 10, 0, false, []⟩ 300 500).2.2.2.2.2
    (by norm_num) (by norm_num)

/-! ## Claim C8: coverage bounds -/

/-- Claim C8: `0 ≤ coverage(o, t) ≤ 1` for all outputs and topics, and the
coverage is `1` whenever the topic contributes no scoreable keywords, in
particular for the empty topic. -/
theorem claim_C8_coverage_bounds (o t : List Char) :
    0 ≤ calculate_topic_coverage o t ∧ calculate_topic_coverage o t ≤ 1 ∧
    (topicTerms t = [] → calculate_topic_coverage o t = 1) ∧
    calculate_topic_coverage o [] = 1 := by
  have hempty : calculate_topic_coverage o [] = 1 := by
    simp [calculate_topic_coverage, topicTerms, alphaRuns]
  by_cases h : topicTerms t = []
  · refine ⟨?_, ?_, fun _ => ?_, hempty⟩ <;> simp [calculate_topic_coverage, h]
  · have hpos : (0 : ℚ) < ((topicTerms t).length : ℚ) := by
      have : 0 < (topicTerms t).length := List.length_pos.2 h
      exact_mod_cast this
    have hle : (matchedTerms o t).length ≤ (topicTerms t).length :=
      List.length_filter_le _ _
    refine ⟨?_, ?_, fun h' => absurd h' h, hempty⟩
    · simp only [calculate_topic_coverage, if_neg h]
      positivity
    · simp only [calculate_topic_coverage, if_neg h]
      rw [div_le_one hpos]
      exact_mod_cast hle

/-- Witness for C8 at a concrete output and the empty topic. -/
theorem claim_C8_witness :
    calculate_topic_coverage "anything at all".toList "!! 22".toList = 1 :=
  (claim_C8_coverage_bounds "anything at all".toList "!! 22".toList).2.2.1 (by decide)

/-! ## Claim C10: judge verdict parsing -/

/-- Claim C10: in offline (fake) mode `evaluate_with_judge` always returns a
true verdict; in real mode it returns `true` iff the first whitespace token of
the judge reply, upper-cased, is exactly `"PASS"` — so an empty reply or a
reply starting `"PASS."` yields `false`. -/
theorem claim_C10_judge_verdict (fake : Bool) (stub reply : List Char) :
    (fake = true → (evaluate_with_judge fake stub reply).1 = true) ∧
    (fake = false →
      ((evaluate_with_judge fake stub reply).1 = true ↔
        firstTokenUpper (stripList reply) = "PASS".toList)) ∧
    (evaluate_with_judge false stub []).1 = false ∧
    (evaluate_with_judge false stub "PASS. good".toList).1 = false := by
  refine ⟨fun h => by simp [evaluate_with_judge, h], fun h => by simp [evaluate_with_judge, h],
    ?_, ?_⟩ <;> simp [evaluate_with_judge] <;> decide

/-- Witness for C10: fake mode passes, and a real-mode reply whose first token
is exactly `PASS` after upper-casing is accepted. -/
theorem claim_C10_witness :
    (evaluate_with_judge true "PASS stub-abc".toList "ignored".toList).1 = true ∧
    (evaluate_with_judge false [] "  pass mostly".toList).1 = true := by
  constructor
  · exact (claim_C10_judge_verdict true "PASS stub-abc".toList "ignored".toList).1 rfl
  · exact ((claim_C10_judge_verdict false [] "  pass mostly".toList).2.1 rfl).2 (by decide)

/-! ## Claim C9: top-level audit pass/fail policy -/

theorem classifyAudit_mem_snd {l : List ModelAuditSummary} {s : ModelAuditSummary}
    (h : s ∈ (classifyAudit l).2) : s ∈ l ∧ s.successful_runs = 0 := by
  induction l with
  | nil => simp [classifyAudit] at h
  | cons a rest ih =>
    simp only [classifyAudit] at h
    by_cases h0 : a.successful_runs = 0
    · rw [if_pos h0] at h
      rcases List.mem_cons.1 h with h' | h'
      · subst h'
        exact ⟨List.mem_cons_self _ _, h0⟩
      · exact ⟨List.mem_cons_of_mem _ (ih h').1, (ih h').2⟩
    · rw [if_neg h0] at h
      by_cases h1 : a.success_rate < 2/5
      · rw [if_pos h1] at h
        exact ⟨List.mem_cons_of_mem _ (ih h).1, (ih h).2⟩
      · rw [if_neg h1] at h
        exact ⟨List.mem_cons_of_mem _ (ih h).1, (ih h).2⟩

theorem classifyAudit_snd_of_zero {l : List ModelAuditSummary} {s : ModelAuditSummary}
    (hs : s ∈ l) (h0 : s.successful_runs = 0) : s ∈ (classifyAudit l).2 := by
  induction l with
  | nil => simp at hs
  | cons a rest ih =>
    simp only [classifyAudit]
    rcases List.mem_cons.1 hs with h' | h'
    · subst h'
      simp [if_pos h0]
    · by_cases ha : a.successful_runs = 0
      · simp only [if_pos ha]
        exact List.mem_cons_of_mem _ (ih h')
      · by_cases hr : a.success_rate < 2/5 <;> simp [if_neg ha, hr] <;> exact ih h'

theorem classifyAudit_fst_of_low {l : List ModelAuditSummary} {s : ModelAuditSummary}
    (hs : s ∈ l) (h0 : s.successful_runs ≠ 0) (hr : s.success_rate < 2/5) :
    s ∈ (classifyAudit l).1 := by
  induction l with
  | nil => simp at hs
  | cons a rest ih =>
    simp only [classifyAudit]
    rcases List.mem_cons.1 hs with h' | h'
    · subst h'
      simp [if_neg h0, if_pos hr]
    · by_cases ha : a.successful_runs = 0
      · simpa [if_pos ha] using ih h'
      · by_cases hra : a.success_rate < 2/5 <;> simp [if_neg ha, hra] <;>
          first | exact Or.inr (ih h') | exact ih h'

/-- Claim C9: the audit is surfaced as a hard failure iff some model has zero
successful runs; a model with a positive success rate below the 0.4 minimum is
listed among the cautionary models and never among the failing ones. -/
theorem claim_C9_audit_policy (summaries : List ModelAuditSummary) :
    (auditHardFail summaries = true ↔ ∃ s ∈ summaries, s.successful_runs = 0) ∧
    (∀ s ∈ summaries, 0 < s.successful_runs → s.success_rate < 2/5 →
      s ∈ (classifyAudit summaries).1 ∧ s ∉ (classifyAudit summaries).2) := by
  constructor
  · rw [auditHardFail]
    constructor
    · intro h
      rcases List.exists_mem_of_ne_nil _ (by simpa [List.isEmpty_iff] using h) with ⟨s, hs⟩
      exact ⟨s, (classifyAudit_mem_snd hs).1, (classifyAudit_mem_snd hs).2⟩
    · rintro ⟨s, hs, h0⟩
      have := classifyAudit_snd_of_zero hs h0
      simp only [decide_eq_true_eq]
      intro hemp
      rw [List.isEmpty_iff] at hemp
      simp [hemp] at this
  · intro s hs hpos hrate
    refine ⟨classifyAudit_fst_of_low hs (by omega) hrate, ?_⟩
    intro hmem
    have := (classifyAudit_mem_snd hmem).2
    omega

/-- Witness for C9: a single model with zero successes over four runs is a
hard failure. -/
theorem claim_C9_witness :
    auditHardFail [⟨"gemma3:4b".toList, 4, 0, 4, 0⟩] = true :=
  (claim_C9_audit_policy [⟨"gemma3:4b".toList, 4, 0, 4, 0⟩]).1.mpr
    ⟨⟨"gemma3:4b".toList, 4, 0, 4, 0⟩, by simp, rfl⟩

/-! ## Facts about one attempt (`attemptStep`) -/

theorem attemptStep_cases (fake : Bool) (sv : Services) (topic : List Char)
    (sb i np : Nat) (temp : ℚ) :
    (∃ len out, attemptStep fake sv topic sb i np temp
        = (⟨i, sb + i, len, AttemptOutcome.tooShort, none, none, false⟩, out)) ∨
    (∃ len out, attemptStep fake sv topic sb i np temp
        = (⟨i, sb + i, len, AttemptOutcome.offTopic, none, none, false⟩, out)) ∨
    (∃ len out t1, attemptStep fake sv topic sb i np temp
        = (⟨i, sb + i, len, AttemptOutcome.judged, some ⟨sb + 97, true, t1⟩, none, true⟩, out)) ∨
    (fake = false ∧ ∃ len out t1 p2 t2, attemptStep fake sv topic sb i np temp
        = (⟨i, sb + i, len, AttemptOutcome.judged, some ⟨sb + 97, false, t1⟩,
            some ⟨sb + 197, p2, t2⟩, p2⟩, out)) ∨
    (fake = true ∧ ∃ len out t1, attemptStep fake sv topic sb i np temp
        = (⟨i, sb + i, len, AttemptOutcome.judged, some ⟨sb + 97, false, t1⟩, none, false⟩,
            out)) := by
  simp only [attemptStep]
  split_ifs <;>
    first
    | exact Or.inl ⟨_, _, rfl⟩
    | exact Or.inr (Or.inl ⟨_, _, rfl⟩)
    | exact Or.inr (Or.inr (Or.inl ⟨_, _, _, rfl⟩))
    | exact Or.inr (Or.inr (Or.inr (Or.inl ⟨by assumption, _, _, _, _, _, rfl⟩)))
    | exact Or.inr (Or.inr (Or.inr (Or.inr
        ⟨by cases fake <;> simp_all, _, _, _, rfl⟩)))

theorem attemptStep_index_seed (fake : Bool) (sv : Services) (topic : List Char)
    (sb i np : Nat) (temp : ℚ) :
    (attemptStep fake sv topic sb i np temp).1.index = i ∧
    (attemptStep fake sv topic sb i np temp).1.seed = sb + i := by
  rcases attemptStep_cases fake sv topic sb i np temp with
    ⟨len, out, h⟩ | ⟨len, out, h⟩ | ⟨len, out, t1, h⟩ | ⟨hf, len, out, t1, p2, t2, h⟩ |
    ⟨hf, len, out, t1, h⟩ <;> rw [h] <;> exact ⟨rfl, rfl⟩

theorem attemptStep_judgeCount_le (fake : Bool) (sv : Services) (topic : List Char)
    (sb i np : Nat) (temp : ℚ) :
    recJudgeCount (attemptStep fake sv topic sb i np temp).1 ≤ 2 := by
  rcases attemptStep_cases fake sv topic sb i np temp with
    ⟨len, out, h⟩ | ⟨len, out, h⟩ | ⟨len, out, t1, h⟩ | ⟨hf, len, out, t1, p2, t2, h⟩ |
    ⟨hf, len, out, t1, h⟩ <;> rw [h] <;> simp [recJudgeCount]

theorem attemptStep_judge2_spec (fake : Bool) (sv : Services) (topic : List Char)
    (sb i np : Nat) (temp : ℚ) (c2 : JudgeCallRec)
    (h2 : (attemptStep fake sv topic sb i np temp).1.judge2 = some c2) :
    fake = false ∧
    (∃ t1, (attemptStep fake sv topic sb i np temp).1.judge1 = some ⟨sb + 97, false, t1⟩) ∧
    c2.seed = sb + 197 ∧
    (c2.pass = true → (attemptStep fake sv topic sb i np temp).1.accepted = true) := by
  rcases attemptStep_cases fake sv topic sb i np temp with
    ⟨len, out, h⟩ | ⟨len, out, h⟩ | ⟨len, out, t1, h⟩ | ⟨hf, len, out, t1, p2, t2, h⟩ |
    ⟨hf, len, out, t1, h⟩ <;> rw [h] at h2 ⊢ <;> simp_all
  obtain ⟨rfl⟩ := h2
  simp

theorem attemptStep_not_accepted_not_stabilized (fake : Bool) (sv : Services)
    (topic : List Char) (sb i np : Nat) (temp : ℚ)
    (hacc : (attemptStep fake sv topic sb i np temp).1.accepted = false) :
    recStabilized (attemptStep fake sv topic sb i np temp).1 = false := by
  rcases attemptStep_cases fake sv topic sb i np temp with
    ⟨len, out, h⟩ | ⟨len, out, h⟩ | ⟨len, out, t1, h⟩ | ⟨hf, len, out, t1, p2, t2, h⟩ |
    ⟨hf, len, out, t1, h⟩ <;> rw [h] at hacc ⊢ <;> simp_all [recStabilized]

/-! ## Facts about the attempt loop (`runFrom`) -/

theorem runFrom_trace_get (fake : Bool) (sv : Services) (topic : List Char) (sb : Nat) :
    ∀ (cfgs : List (Nat × ℚ)) (i n : Nat) (rec : AttemptRecord),
      (runFrom fake sv topic sb cfgs i).trace.get? n = some rec →
      ∃ np temp, cfgs.get? n = some (np, temp) ∧
        rec = (attemptStep fake sv topic sb (i + n) np temp).1 := by
  intro cfgs
  induction cfgs with
  | nil => intro i n rec h; simp [runFrom] at h
  | cons c rest ih =>
    intro i n rec h
    obtain ⟨np, temp⟩ := c
    simp only [runFrom] at h
    by_cases hacc : (attemptStep fake sv topic sb i np temp).1.accepted
    · rw [if_pos hacc] at h
      cases n with
      | zero => exact ⟨np, temp, rfl, by simpa using h.symm⟩
      | succ m => simp at h
    · rw [if_neg hacc] at h
      cases n with
      | zero => exact ⟨np, temp, rfl, by simpa using h.symm⟩
      | succ m =>
        simp only [List.get?_cons_succ] at h ⊢
        obtain ⟨np', temp', hc, hrec⟩ := ih (i + 1) m rec h
        rw [show i + 1 + m = i + (m + 1) from by omega] at hrec
        exact ⟨np', temp', hc, hrec⟩

theorem runFrom_mem_trace (fake : Bool) (sv : Services) (topic : List Char) (sb : Nat)
    (cfgs : List (Nat × ℚ)) (i : Nat) (rec : AttemptRecord)
    (h : rec ∈ (runFrom fake sv topic sb cfgs i).trace) :
    ∃ n np temp, cfgs.get? n = some (np, temp) ∧
      rec = (attemptStep fake sv topic sb (i + n) np temp).1 := by
  obtain ⟨n, hn⟩ := List.get?_of_mem h
  exact ⟨n, runFrom_trace_get fake sv topic sb cfgs i n rec hn⟩

theorem runFrom_trace_length (fake : Bool) (sv : Services) (topic : List Char) (sb : Nat) :
    ∀ (cfgs : List (Nat × ℚ)) (i : Nat),
      (runFrom fake sv topic sb cfgs i).trace.length ≤ cfgs.length := by
  intro cfgs
  induction cfgs with
  | nil => intro i; simp [runFrom]
  | cons c rest ih =>
    intro i
    obtain ⟨np, temp⟩ := c
    simp only [runFrom]
    by_cases hacc : (attemptStep fake sv topic sb i np temp).1.accepted
    · rw [if_pos hacc]; simp
    · rw [if_neg hacc]
      simpa using ih (i + 1)

theorem runFrom_genCalls (fake : Bool) (sv : Services) (topic : List Char) (sb : Nat) :
    ∀ (cfgs : List (Nat × ℚ)) (i : Nat),
      (runFrom fake sv topic sb cfgs i).genCalls =
        (runFrom fake sv topic sb cfgs i).trace.length := by
  intro cfgs
  induction cfgs with
  | nil => intro i; simp [runFrom]
  | cons c rest ih =>
    intro i
    obtain ⟨np, temp⟩ := c
    simp only [runFrom]
    by_cases hacc : (attemptStep fake sv topic sb i np temp).1.accepted
    · rw [if_pos hacc]
      rfl
    · rw [if_neg hacc]
      simpa using ih (i + 1)

theorem runFrom_judgeCalls (fake : Bool) (sv : Services) (topic : List Char) (sb : Nat) :
    ∀ (cfgs : List (Nat × ℚ)) (i : Nat),
      (runFrom fake sv topic sb cfgs i).judgeCalls =
        ((runFrom fake sv topic sb cfgs i).trace.map recJudgeCount).sum := by
  intro cfgs
  induction cfgs with
  | nil => intro i; simp [runFrom]
  | cons c rest ih =>
    intro i
    obtain ⟨np, temp⟩ := c
    simp only [runFrom]
    by_cases hacc : (attemptStep fake sv topic sb i np temp).1.accepted
    · rw [if_pos hacc]; simp
    · rw [if_neg hacc]
      simp [ih (i + 1)]

theorem runFrom_dropLast_not_accepted (fake : Bool) (sv : Services) (topic : List Char)
    (sb : Nat) :
    ∀ (cfgs : List (Nat × ℚ)) (i : Nat) (rec : AttemptRecord),
      rec ∈ (runFrom fake sv topic sb cfgs i).trace.dropLast → rec.accepted = false := by
  intro cfgs
  induction cfgs with
  | nil => intro i rec h; simp [runFrom] at h
  | cons c rest ih =>
    intro i rec h
    obtain ⟨np, temp⟩ := c
    simp only [runFrom] at h
    by_cases hacc : (attemptStep fake sv topic sb i np temp).1.accepted
    · rw [if_pos hacc] at h
      simp at h
    · rw [if_neg hacc] at h
      simp only at h
      rcases htr : (runFrom fake sv topic sb rest (i + 1)).trace with _ | ⟨a, t⟩
      · rw [htr] at h
        simp at h
      · rw [htr, List.dropLast_cons_of_ne_nil (by simp)] at h
        rcases List.mem_cons.1 h with h' | h'
        · rw [h']
          simpa using hacc
        · exact ih (i + 1) rec (by rw [htr]; exact h')

theorem runFrom_success_iff (fake : Bool) (sv : Services) (topic : List Char) (sb : Nat) :
    ∀ (cfgs : List (Nat × ℚ)) (i : Nat),
      ((runFrom fake sv topic sb cfgs i).success = true ↔
        ∃ rec, (runFrom fake sv topic sb cfgs i).trace.getLast? = some rec ∧
          rec.accepted = true) := by
  intro cfgs
  induction cfgs with
  | nil => intro i; simp [runFrom]
  | cons c rest ih =>
    intro i
    obtain ⟨np, temp⟩ := c
    simp only [runFrom]
    by_cases hacc : (attemptStep fake sv topic sb i np temp).1.accepted
    · rw [if_pos hacc]
      dsimp only
      simp [List.getLast?_singleton, hacc]
    · rw [if_neg hacc]
      dsimp only
      rcases htr : (runFrom fake sv topic sb rest (i + 1)).trace with _ | ⟨a, t⟩
      · constructor
        · intro hsucc
          have hh := (ih (i + 1)).1 hsucc
          rw [htr] at hh
          simp at hh
        · rintro ⟨rec, hlast, hrec⟩
          rw [List.getLast?_singleton] at hlast
          rw [(Option.some_inj.1 hlast).symm] at hrec
          exact absurd hrec (by simpa using hacc)
      · rw [List.getLast?_cons_cons, ← htr]
        exact ih (i + 1)

theorem runFrom_stabilized_iff (fake : Bool) (sv : Services) (topic : List Char) (sb : Nat) :
    ∀ (cfgs : List (Nat × ℚ)) (i : Nat),
      ((runFrom fake sv topic sb cfgs i).stabilized = true ↔
        ∃ rec, (runFrom fake sv topic sb cfgs i).trace.getLast? = some rec ∧
          recStabilized rec = true) := by
  intro cfgs
  induction cfgs with
  | nil => intro i; simp [runFrom]
  | cons c rest ih =>
    intro i
    obtain ⟨np, temp⟩ := c
    simp only [runFrom]
    by_cases hacc : (attemptStep fake sv topic sb i np temp).1.accepted
    · rw [if_pos hacc]
      dsimp only
      simp [List.getLast?_singleton]
    · rw [if_neg hacc]
      dsimp only
      rcases htr : (runFrom fake sv topic sb rest (i + 1)).trace with _ | ⟨a, t⟩
      · constructor
        · intro hstab
          have hh := (ih (i + 1)).1 hstab
          rw [htr] at hh
          simp at hh
        · rintro ⟨rec, hlast, hrec⟩
          rw [List.getLast?_singleton] at hlast
          rw [(Option.some_inj.1 hlast).symm] at hrec
          rw [attemptStep_not_accepted_not_stabilized fake sv topic sb i np temp
            (by simpa using hacc)] at hrec
          exact absurd hrec (by simp)
      · rw [List.getLast?_cons_cons, ← htr]
        exact ih (i + 1)

/-! ## Claim C1: bounded attempts and early termination -/

/-- Claim C1: for every run of the Attempt Controller over one
(scenario, model) pair, the number of attempts executed (= generation calls =
trace length) is at most the length of the configured attempt-parameter list;
the loop stops at the first accepted attempt (every non-final record is
rejected, and the run succeeds iff the final record is accepted), and no
generation or judge call is made beyond the recorded attempts. -/
theorem claim_C1_early_termination (hash : List Char → Nat) (fake : Bool) (sv : Services)
    (scenario_id model topic : List Char) :
    (runController hash fake sv scenario_id model topic).trace.length ≤
      (attemptConfigs fake).length ∧
    (runController hash fake sv scenario_id model topic).genCalls =
      (runController hash fake sv scenario_id model topic).trace.length ∧
    (runController hash fake sv scenario_id model topic).judgeCalls =
      ((runController hash fake sv scenario_id model topic).trace.map recJudgeCount).sum ∧
    (∀ rec ∈ (runController hash fake sv scenario_id model topic).trace.dropLast,
      rec.accepted = false) ∧
    ((runController hash fake sv scenario_id model topic).success = true ↔
      ∃ rec, (runController hash fake sv scenario_id model topic).trace.getLast? = some rec ∧
        rec.accepted = true) := by
  refine ⟨runFrom_trace_length fake sv topic _ _ 1, runFrom_genCalls fake sv topic _ _ 1,
    runFrom_judgeCalls fake sv topic _ _ 1, fun rec h => ?_,
    runFrom_success_iff fake sv topic _ _ 1⟩
  exact runFrom_dropLast_not_accepted fake sv topic _ _ 1 rec h

/-- Witness for C1 on a concrete failing run: four live attempts, all too
short, none accepted. -/
theorem claim_C1_witness :
    (runController (fun _ => 5) false svShort "s1".toList "m1".toList "cats".toList).trace.length
        ≤ 4 ∧
    ({ index := 1, seed := 6, outLength := 0, outcome := AttemptOutcome.tooShort,
       judge1 := none, judge2 := none, accepted := false } : AttemptRecord).accepted = false := by
  have h := claim_C1_early_termination (fun _ => 5) false svShort
    "s1".toList "m1".toList "cats".toList
  exact ⟨by simpa [attemptConfigs] using h.1, h.2.2.2.1 _ (by decide)⟩

/-! ## Claim C2: single-shot stabilization -/

/-- Claim C2: within a single attempt, a judge rejection triggers at most one
re-evaluation (at most two judge calls per attempt), and a re-evaluation is
recorded only in live mode after a failing first judge call at seed
`seed_base + 97`; the re-evaluation uses seed `seed_base + 197`, a passing
re-evaluation makes the attempt accepted with the run marked stabilized, and
the original failing judge call stays in the record. -/
theorem claim_C2_stabilization (hash : List Char → Nat) (fake : Bool) (sv : Services)
    (scenario_id model topic : List Char) :
    (∀ rec ∈ (runController hash fake sv scenario_id model topic).trace,
      recJudgeCount rec ≤ 2 ∧
      ∀ c2, rec.judge2 = some c2 →
        fake = false ∧
        (∃ t1, rec.judge1 = some ⟨seedBaseOf hash scenario_id model + 97, false, t1⟩) ∧
        c2.seed = seedBaseOf hash scenario_id model + 197 ∧
        (c2.pass = true → rec.accepted = true)) ∧
    ((runController hash fake sv scenario_id model topic).stabilized = true ↔
      ∃ rec, (runController hash fake sv scenario_id model topic).trace.getLast? = some rec ∧
        recStabilized rec = true) := by
  refine ⟨fun rec h => ?_, runFrom_stabilized_iff fake sv topic _ _ 1⟩
  obtain ⟨n, np, temp, _, hrec⟩ :=
    runFrom_mem_trace fake sv topic (seedBaseOf hash scenario_id model)
      (attemptConfigs fake) 1 rec h
  subst hrec
  exact ⟨attemptStep_judgeCount_le fake sv topic _ _ np temp,
    fun c2 h2 => attemptStep_judge2_spec fake sv topic _ _ np temp c2 h2⟩

set_option maxRecDepth 100000 in
/-- Witness for C2 on a concrete stabilized run: the first judge call (seed
97) fails, the single re-evaluation (seed 197) passes, the attempt is
accepted and the run is stabilized. -/
theorem claim_C2_witness :
    (runController (fun _ => 0) false svStab "s1".toList "m1".toList "cat".toList).stabilized
      = true := by
  have h := claim_C2_stabilization (fun _ => 0) false svStab
    "s1".toList "m1".toList "cat".toList
  refine h.2.mpr ⟨⟨1, 1, 300, AttemptOutcome.judged,
    some ⟨97, false, "FAIL no".toList⟩, some ⟨197, true, "PASS ok".toList⟩, true⟩,
    by decide, by decide⟩

/-! ## Claim C3: deterministic seed derivation -/

/-- Claim C3: the seed of the `n`-th recorded attempt is the pure function
`stable_hash(scenario_id :: model) + attempt_index` of the run inputs (never
randomly drawn), so a fixed `(scenario_id, model, mode, attempt_index)` always
yields the same seed, and two runs of the controller with the same
deterministic services produce identical traces. -/
theorem claim_C3_seed_determinism (hash : List Char → Nat) (fake : Bool) (sv : Services)
    (scenario_id model topic : List Char) (n : Nat) (rec : AttemptRecord) :
    ((runController hash fake sv scenario_id model topic).trace.get? n = some rec →
      rec.seed = seedBaseOf hash scenario_id model + (n + 1) ∧ rec.index = n + 1) ∧
    (runController hash fake sv scenario_id model topic).trace =
      (runController hash fake sv scenario_id model topic).trace := by
  refine ⟨fun h => ?_, rfl⟩
  obtain ⟨np, temp, _, hrec⟩ :=
    runFrom_trace_get fake sv topic (seedBaseOf hash scenario_id model)
      (attemptConfigs fake) 1 n rec h
  subst hrec
  obtain ⟨hidx, hseed⟩ := attemptStep_index_seed fake sv topic
    (seedBaseOf hash scenario_id model) (1 + n) np temp
  constructor
  · rw [hseed]; omega
  · rw [hidx]; omega

/-- Witness for C3: on a concrete run the first recorded attempt carries seed
`hash + 1`. -/
theorem claim_C3_witness :
    ({ index := 1, seed := 6, outLength := 0, outcome := AttemptOutcome.tooShort,
       judge1 := none, judge2 := none, accepted := false } : AttemptRecord).seed = 5 + (0 + 1) := by
  have h := claim_C3_seed_determinism (fun _ => 5) true svShort
    "s1".toList "m1".toList "cats".toList 0
    ⟨1, 6, 0, AttemptOutcome.tooShort, none, none, false⟩
  exact (h.1 (by decide)).1

/-! ## Invariants established by `collapseWs` -/

theorem collapseWsAux_true_head_not_space :
    ∀ (l : List Char) (c : Char), (collapseWsAux true l).head? = some c →
      pyIsSpace c = false := by
  intro l
  induction l with
  | nil => intro c h; simp [collapseWsAux] at h
  | cons d ds ih =>
    intro c h
    rw [collapseWsAux] at h
    by_cases hd : pyIsSpace d
    · rw [if_pos hd, if_pos rfl] at h
      exact ih c h
    · rw [if_neg hd] at h
      simp at h
      rw [← h]
      simpa using hd

theorem collapseWsAux_false_head (l : List Char) :
    (collapseWsAux false l).head? = l.head? ∨ (collapseWsAux false l).head? = some ' ' := by
  cases l with
  | nil => exact Or.inl rfl
  | cons d ds =>
    rw [collapseWsAux]
    by_cases hd : pyIsSpace d
    · rw [if_pos hd]
      simp
    · rw [if_neg hd]
      simp

theorem onlyPlainSpace_collapseWsAux :
    ∀ (l : List Char) (b : Bool), OnlyPlainSpace (collapseWsAux b l) := by
  intro l
  induction l with
  | nil => intro b; intro c hc; simp [collapseWsAux] at hc
  | cons d ds ih =>
    intro b c hc hsp
    rw [collapseWsAux] at hc
    by_cases hd : pyIsSpace d
    · rw [if_pos hd] at hc
      cases b with
      | true =>
        rw [if_pos rfl] at hc
        exact ih true c hc hsp
      | false =>
        rw [if_neg (by simp)] at hc
        rcases List.mem_cons.1 hc with h' | h'
        · exact h'
        · exact ih true c h' hsp
    · rw [if_neg hd] at hc
      rcases List.mem_cons.1 hc with h' | h'
      · subst h'
        simp [hsp] at hd
      · exact ih false c h' hsp

theorem noTwoSpaces_collapseWsAux :
    ∀ (l : List Char) (b : Bool), NoTwoSpaces (collapseWsAux b l) := by
  intro l
  induction l with
  | nil => intro b; constructor
  | cons d ds ih =>
    intro b
    rw [collapseWsAux]
    by_cases hd : pyIsSpace d
    · rw [if_pos hd]
      cases b with
      | true =>
        rw [if_pos rfl]
        exact ih true
      | false =>
        rw [if_neg (by simp)]
        refine List.chain'_cons'.2 ⟨?_, ih true⟩
        intro y hy hcontra
        rw [collapseWsAux_true_head_not_space ds y hy] at hcontra
        simp at hcontra
    · rw [if_neg hd]
      refine List.chain'_cons'.2 ⟨?_, ih false⟩
      intro y hy hcontra
      simp [hcontra.1] at hd

theorem noDashPair_collapseWsAux :
    ∀ (l : List Char) (b : Bool), NoDashPair l → NoDashPair (collapseWsAux b l) := by
  intro l
  induction l with
  | nil => intro b _; constructor
  | cons d ds ih =>
    intro b hl
    have htail : NoDashPair ds := List.Chain'.tail hl
    rw [collapseWsAux]
    by_cases hd : pyIsSpace d
    · rw [if_pos hd]
      cases b with
      | true =>
        rw [if_pos rfl]
        exact ih true htail
      | false =>
        rw [if_neg (by simp)]
        refine List.chain'_cons'.2 ⟨?_, ih true htail⟩
        intro y _ hcontra
        simp at hcontra
    · rw [if_neg hd]
      refine List.chain'_cons'.2 ⟨?_, ih false htail⟩
      intro y hy hcontra
      rcases collapseWsAux_false_head ds with hh | hh
      · rw [hy] at hh
        have : ∀ z ∈ ds.head?, ¬(d = '-' ∧ z = '-') := (List.chain'_cons'.1 hl).1
        exact this y hh.symm hcontra
      · rw [hy] at hh
        have hy' : y = ' ' := by
          have := hh.symm
          simpa using this.symm
        rw [hy'] at hcontra
        simp at hcontra

theorem collapseWsAux_true_eq_false (l : List Char)
    (h : ∀ c ∈ l.head?, pyIsSpace c = false) :
    collapseWsAux true l = collapseWsAux false l := by
  cases l with
  | nil => rfl
  | cons d ds =>
    have hd : pyIsSpace d = false := h d rfl
    rw [collapseWsAux, collapseWsAux, if_neg (by simp [hd]), if_neg (by simp [hd])]

theorem collapseWsAux_eq_self :
    ∀ (l : List Char), OnlyPlainSpace l → NoTwoSpaces l → collapseWsAux false l = l := by
  intro l
  induction l with
  | nil => intro _ _; rfl
  | cons d ds ih =>
    intro hops hnts
    have htail : collapseWsAux false ds = ds :=
      ih (fun c hc => hops c (List.mem_cons_of_mem _ hc)) (List.Chain'.tail hnts)
    rw [collapseWsAux]
    by_cases hd : pyIsSpace d
    · have hd' : d = ' ' := hops d (List.mem_cons_self _ _) hd
      rw [if_pos hd, if_neg (by simp)]
      have hnext : ∀ c ∈ ds.head?, pyIsSpace c = false := by
        intro c hc
        have := (List.chain'_cons'.1 hnts).1 c hc
        by_contra hcon
        simp at hcon
        exact this ⟨hd, hcon⟩
      rw [collapseWsAux_true_eq_false ds hnext, htail, hd']
    · rw [if_neg hd, htail]

/-! ## Invariants established by `collapseDashes` -/

theorem cdAux_normal_head (l : List Char) :
    (cdAux CdSt.normal l).head? = l.head? ∨ (cdAux CdSt.normal l).head? = some ' ' := by
  cases l with
  | nil => exact Or.inl rfl
  | cons d ds =>
    rw [cdAux]
    by_cases hm : d = '-' ∧ ds.head? = some '-'
    · rw [if_pos hm]
      simp
    · rw [if_neg hm]
      simp

theorem noDashPair_cdAux : ∀ (l : List Char) (st : CdSt), NoDashPair (cdAux st l) := by
  intro l
  induction l with
  | nil => intro st; cases st <;> constructor
  | cons d ds ih =>
    intro st
    have hnorm : ∀ (h : ¬(d = '-' ∧ ds.head? = some '-')),
        NoDashPair (d :: cdAux CdSt.normal ds) := by
      intro h
      refine List.chain'_cons'.2 ⟨?_, ih CdSt.normal⟩
      intro y hy hcontra
      rcases cdAux_normal_head ds with hh | hh
      · rw [hy] at hh
        exact h ⟨hcontra.1, by rw [← hh, hcontra.2]⟩
      · rw [hy] at hh
        have hy' : y = ' ' := by
          have := hh.symm
          exact (Option.some_inj.1 this).symm
        rw [hy'] at hcontra
        simp at hcontra
    have hdash : NoDashPair (' ' :: cdAux CdSt.dash ds) := by
      refine List.chain'_cons'.2 ⟨?_, ih CdSt.dash⟩
      intro y _ hcontra
      simp at hcontra
    cases st with
    | dash =>
      rw [cdAux]
      by_cases h1 : d = '-'
      · rw [if_pos h1]
        exact ih CdSt.dash
      · rw [if_neg h1]
        by_cases h2 : pyIsSpace d
        · rw [if_pos h2]
          exact ih CdSt.ws
        · rw [if_neg h2]
          exact hnorm (fun hc => h1 hc.1)
    | ws =>
      rw [cdAux]
      by_cases h2 : pyIsSpace d
      · rw [if_pos h2]
        exact ih CdSt.ws
      · rw [if_neg h2]
        by_cases hm : d = '-' ∧ ds.head? = some '-'
        · rw [if_pos hm]
          exact hdash
        · rw [if_neg hm]
          exact hnorm hm
    | normal =>
      rw [cdAux]
      by_cases hm : d = '-' ∧ ds.head? = some '-'
      · rw [if_pos hm]
        exact hdash
      · rw [if_neg hm]
        exact hnorm hm

theorem cdAux_eq_self : ∀ (l : List Char), NoDashPair l → cdAux CdSt.normal l = l := by
  intro l
  induction l with
  | nil => intro _; rfl
  | cons d ds ih =>
    intro hl
    rw [cdAux]
    have hm : ¬(d = '-' ∧ ds.head? = some '-') := by
      rintro ⟨h1, h2⟩
      rcases ds with _ | ⟨e, es⟩
      · simp at h2
      · have := (List.chain'_cons'.1 hl).1 e rfl
        exact this ⟨h1, by simpa using h2⟩
    rw [if_neg hm, ih (List.Chain'.tail hl)]

/-! ## Facts about `stripList` -/

theorem head_dropWhile_false (p : Char → Bool) :
    ∀ (l : List Char) (c : Char), (l.dropWhile p).head? = some c → p c = false := by
  intro l
  induction l with
  | nil => intro c h; simp at h
  | cons d ds ih =>
    intro c h
    by_cases hd : p d
    · rw [List.dropWhile_cons_of_pos hd] at h
      exact ih c h
    · rw [List.dropWhile_cons_of_neg hd] at h
      simp at h
      rw [← h]
      simpa using hd

theorem dropWhile_eq_self_of_head (p : Char → Bool) (l : List Char)
    (h : ∀ c, l.head? = some c → p c = false) : l.dropWhile p = l := by
  cases l with
  | nil => rfl
  | cons d ds => exact List.dropWhile_cons_of_neg (by simp [h d rfl])

theorem prefix_head (l₁ l₂ : List Char) (h : l₁ <+: l₂) (c : Char)
    (hc : l₁.head? = some c) : l₂.head? = some c := by
  obtain ⟨t, rfl⟩ := h
  cases l₁ with
  | nil => simp at hc
  | cons d ds => simpa using hc

theorem stripRight_prefix_self (l : List Char) : stripRight l <+: l := by
  have h : l.reverse.dropWhile pyIsSpace <:+ l.reverse := List.dropWhile_suffix _
  have h2 : (l.reverse.dropWhile pyIsSpace).reverse <+: l.reverse.reverse :=
    List.reverse_prefix.2 (by simpa using h)
  simpa [stripRight] using h2

theorem stripList_infix_self (l : List Char) : stripList l <:+: l := by
  obtain ⟨t, ht⟩ := stripRight_prefix_self (l.dropWhile pyIsSpace)
  obtain ⟨u, hu⟩ := List.dropWhile_suffix (l := l) pyIsSpace
  refine ⟨u, t, ?_⟩
  rw [stripList, List.append_assoc, ht, hu]

theorem stripList_head_not_space (l : List Char) (c : Char)
    (h : (stripList l).head? = some c) : pyIsSpace c = false := by
  have hpre : stripList l <+: l.dropWhile pyIsSpace := stripRight_prefix_self _
  exact head_dropWhile_false pyIsSpace l c (prefix_head _ _ hpre c h)

theorem stripList_getLast_not_space (l : List Char) (c : Char)
    (h : (stripList l).getLast? = some c) : pyIsSpace c = false := by
  have : (stripList l).getLast? = ((l.dropWhile pyIsSpace).reverse.dropWhile pyIsSpace).head? := by
    simp [stripList, stripRight]
  rw [this] at h
  exact head_dropWhile_false pyIsSpace _ c h

theorem stripRight_eq_self (l : List Char)
    (h : ∀ c, l.getLast? = some c → pyIsSpace c = false) : stripRight l = l := by
  rw [stripRight, dropWhile_eq_self_of_head pyIsSpace l.reverse (by simpa using h),
    List.reverse_reverse]

theorem stripList_eq_self (l : List Char)
    (hh : ∀ c, l.head? = some c → pyIsSpace c = false)
    (hl : ∀ c, l.getLast? = some c → pyIsSpace c = false) : stripList l = l := by
  rw [stripList, dropWhile_eq_self_of_head pyIsSpace l hh, stripRight_eq_self l hl]

/-! ## Invariants of `cleanText` and the shape of `normalizeOut` -/

theorem onlyPlainSpace_mono {l₁ l₂ : List Char} (h : l₁ <:+: l₂)
    (hp : OnlyPlainSpace l₂) : OnlyPlainSpace l₁ :=
  fun c hc hsp => hp c (h.subset hc) hsp

theorem cleanText_noDashPair (s : List Char) : NoDashPair (cleanText s) := by
  have h1 : NoDashPair (collapseWs (collapseDashes (stripList s))) :=
    noDashPair_collapseWsAux _ false (noDashPair_cdAux _ CdSt.normal)
  exact List.Chain'.infix h1 (stripList_infix_self _)

theorem cleanText_onlyPlainSpace (s : List Char) : OnlyPlainSpace (cleanText s) :=
  onlyPlainSpace_mono (stripList_infix_self _) (onlyPlainSpace_collapseWsAux _ false)

theorem cleanText_noTwoSpaces (s : List Char) : NoTwoSpaces (cleanText s) := by
  exact List.Chain'.infix (noTwoSpaces_collapseWsAux _ false) (stripList_infix_self _)

theorem cleanText_head_not_space (s : List Char) (c : Char)
    (h : (cleanText s).head? = some c) : pyIsSpace c = false :=
  stripList_head_not_space _ c h

theorem cleanText_getLast_not_space (s : List Char) (c : Char)
    (h : (cleanText s).getLast? = some c) : pyIsSpace c = false :=
  stripList_getLast_not_space _ c h

theorem cleanText_eq_self (l : List Char) (h1 : NoDashPair l) (h2 : OnlyPlainSpace l)
    (h3 : NoTwoSpaces l)
    (hh : ∀ c, l.head? = some c → pyIsSpace c = false)
    (hl : ∀ c, l.getLast? = some c → pyIsSpace c = false) : cleanText l = l := by
  rw [cleanText, stripList_eq_self l hh hl,
    show collapseDashes l = l from cdAux_eq_self l h1,
    show collapseWs l = l from collapseWsAux_eq_self l h2 h3]
  exact stripList_eq_self l hh hl

theorem normalizeOut_eq_strip (s : List Char) (L : Nat) :
    (¬(cleanText s).length > L ∧ normalizeOut s L = cleanText s) ∨
    ((cleanText s).length > L ∧
      normalizeOut s L = stripList (rsplitPre ((cleanText s).take L))) := by
  by_cases h : (cleanText s).length > L
  · right
    refine ⟨h, ?_⟩
    rw [normalizeOut]
    exact if_pos h
  · left
    refine ⟨h, ?_⟩
    rw [normalizeOut]
    exact if_neg h

theorem normalizeOut_head_not_space (s : List Char) (L : Nat) (c : Char)
    (h : (normalizeOut s L).head? = some c) : pyIsSpace c = false := by
  rcases normalizeOut_eq_strip s L with ⟨_, heq⟩ | ⟨_, heq⟩ <;> rw [heq] at h
  · exact cleanText_head_not_space s c h
  · exact stripList_head_not_space _ c h

theorem normalizeOut_getLast_not_space (s : List Char) (L : Nat) (c : Char)
    (h : (normalizeOut s L).getLast? = some c) : pyIsSpace c = false := by
  rcases normalizeOut_eq_strip s L with ⟨_, heq⟩ | ⟨_, heq⟩ <;> rw [heq] at h
  · exact cleanText_getLast_not_space s c h
  · exact stripList_getLast_not_space _ c h

theorem normalizeOut_infix_clean (s : List Char) (L : Nat) :
    normalizeOut s L <:+: cleanText s := by
  rcases normalizeOut_eq_strip s L with ⟨_, heq⟩ | ⟨_, heq⟩
  · rw [heq]
  · rw [heq]
    have h1 : stripList (rsplitPre ((cleanText s).take L)) <:+:
        rsplitPre ((cleanText s).take L) := stripList_infix_self _
    have h2 : rsplitPre ((cleanText s).take L) <+: (cleanText s).take L := rsplitPre_prefix_self _
    have h3 : (cleanText s).take L <+: cleanText s := List.take_prefix _ _
    exact h1.trans ( List.IsPrefix.isInfix (h2.trans h3))

theorem normalizeOut_props (s : List Char) (L : Nat) :
    NoDashPair (normalizeOut s L) ∧ OnlyPlainSpace (normalizeOut s L) ∧
      NoTwoSpaces (normalizeOut s L) := by
  have hinf := normalizeOut_infix_clean s L
  exact ⟨ List.Chain'.infix (cleanText_noDashPair s) hinf,
    onlyPlainSpace_mono hinf (cleanText_onlyPlainSpace s),
    List.Chain'.infix (cleanText_noTwoSpaces s) hinf⟩

/-! ## Claim C7: normalizer idempotence -/

/-- Claim C7: the output normalizer is idempotent:
`normalize(normalize(s, L), L) = normalize(s, L)` for every string `s` and
every limit `L`. -/
theorem claim_C7_normalizer_idempotent (s : List Char) (L : Nat) :
    normalizeOut (normalizeOut s L) L = normalizeOut s L := by
  obtain ⟨p1, p2, p3⟩ := normalizeOut_props s L
  have hclean : cleanText (normalizeOut s L) = normalizeOut s L :=
    cleanText_eq_self _ p1 p2 p3 (normalizeOut_head_not_space s L)
      (normalizeOut_getLast_not_space s L)
  have hlen : (normalizeOut s L).length ≤ L := normalizeOut_length_le s L
  rcases normalizeOut_eq_strip (normalizeOut s L) L with ⟨_, heq⟩ | ⟨h, _⟩
  · rw [heq, hclean]
  · rw [hclean] at h
    omega

/-! ## Claim C6: truncation and word boundaries -/

theorem rsplitPre_of_not_mem (l : List Char) (h : ' ' ∉ l) : rsplitPre l = l := by
  cases l with
  | nil => rfl
  | cons c cs =>
    rw [rsplitPre]
    have h1 : ' ' ∉ cs := fun hc => h (List.mem_cons_of_mem _ hc)
    have h2 : ¬c = ' ' := fun hc => h (hc ▸ List.mem_cons_self _ _)
    rw [if_neg h1, if_neg h2]

theorem rsplitPre_of_mem : ∀ (l : List Char), ' ' ∈ l →
    ∃ j, rsplitPre l = l.take j ∧ l.get? j = some ' ' := by
  intro l
  induction l with
  | nil => intro h; simp at h
  | cons c cs ih =>
    intro h
    rw [rsplitPre]
    by_cases h1 : ' ' ∈ cs
    · obtain ⟨j, hj1, hj2⟩ := ih h1
      rw [if_pos h1]
      exact ⟨j + 1, by rw [List.take_succ_cons, hj1], by simpa using hj2⟩
    · have hc : c = ' ' := by
        rcases List.mem_cons.1 h with h' | h'
        · exact h'.symm
        · exact absurd h' h1
      rw [if_neg h1, if_pos hc]
      exact ⟨0, by simp, by simp [hc]⟩

theorem take_head_not_space (s : List Char) (k : Nat) (c : Char)
    (h : ((cleanText s).take k).head? = some c) : pyIsSpace c = false :=
  cleanText_head_not_space s c (prefix_head _ _ ( List.take_prefix _ _) c h)

/-- Claim C6 (amended): when the cleaned form exceeds `max_len`, the
normalizer backtracks to the last word boundary inside the `max_len`-character
prefix whenever that prefix contains a space; if the prefix contains no space
the result is the raw `max_len`-character prefix of the cleaned string (which
may split a word). -/
theorem claim_C6_word_boundary_amended (s : List Char) (L : Nat)
    (h : (cleanText s).length > L) :
    (' ' ∈ (cleanText s).take L →
      endsAtWordBoundary (normalizeOut s L) (cleanText s)) ∧
    (' ' ∉ (cleanText s).take L → normalizeOut s L = (cleanText s).take L) := by
  rcases normalizeOut_eq_strip s L with ⟨h', _⟩ | ⟨_, heq⟩
  · omega
  constructor
  · intro hsp
    obtain ⟨j, hj1, hj2⟩ := rsplitPre_of_mem ((cleanText s).take L) hsp
    have hjlt : j < L := by
      obtain ⟨hlt, _⟩ := List.get?_eq_some.1 hj2
      rw [List.length_take] at hlt
      exact lt_of_lt_of_le hlt (min_le_left _ _)
    have hget : (cleanText s).get? j = some ' ' := by
      rw [List.get?_take hjlt] at hj2
      exact hj2
    have htake : ((cleanText s).take L).take j = (cleanText s).take j := by
      rw [List.take_take, Nat.min_eq_left (le_of_lt hjlt)]
    have hjpos : j ≠ 0 := by
      intro hj0
      subst hj0
      have hhead : (cleanText s).head? = some ' ' := by
        rw [← List.get?_zero]
        exact hget
      have := cleanText_head_not_space s ' ' hhead
      simp [pyIsSpace] at this
    have hjlen : j < (cleanText s).length := by omega
    have hlen_take : ((cleanText s).take j).length = j := by
      simp [Nat.min_eq_left (le_of_lt hjlen)]
    have hstrip : stripList ((cleanText s).take j) = (cleanText s).take j := by
      refine stripList_eq_self _ (fun c hc => take_head_not_space s j c hc) ?_
      intro c hc
      have hc' : ((cleanText s).take j).get? (j - 1) = some c := by
        rw [List.getLast?_eq_getElem?, ← List.get?_eq_getElem?, hlen_take] at hc
        exact hc
      have hcj : (cleanText s).get? (j - 1) = some c := by
        rw [List.get?_take (by omega)] at hc'
        exact hc'
      have hchain := List.chain'_iff_get.1 (cleanText_noTwoSpaces s)
      have hpair := hchain (j - 1) (by omega)
      have hg1 : (cleanText s).get ⟨j - 1, by omega⟩ = c := by
        have := List.get?_eq_get (l := cleanText s) (n := j - 1) (by omega)
        rw [this] at hcj
        exact Option.some_inj.1 hcj
      have hg2 : (cleanText s).get ⟨j - 1 + 1, by omega⟩ = ' ' := by
        have h1 := List.get?_eq_get (l := cleanText s) (n := j - 1 + 1) (by omega)
        have h2 : (cleanText s).get? (j - 1 + 1) = some ' ' := by
          rw [show j - 1 + 1 = j from by omega]
          exact hget
        rw [h1] at h2
        exact Option.some_inj.1 h2
      rw [hg1, hg2] at hpair
      by_contra hcon
      simp only [Bool.not_eq_false] at hcon
      exact hpair ⟨hcon, by simp [pyIsSpace]⟩
    have hres : normalizeOut s L = (cleanText s).take j := by
      rw [heq, hj1, htake, hstrip]
    refine ⟨by rw [hres]; exact List.take_prefix _ _, Or.inr ?_⟩
    rw [hres, hlen_take]
    exact hget
  · intro hsp
    rw [heq, rsplitPre_of_not_mem _ hsp]
    refine stripList_eq_self _ (fun c hc => take_head_not_space s L c hc) ?_
    intro c hc
    have hmem : c ∈ (cleanText s).take L := by
      obtain ⟨hne, hx⟩ := List.mem_getLast?_eq_getLast (Option.mem_def.2 hc)
      rw [hx]
      exact List.getLast_mem hne
    have hc' : c ≠ ' ' := fun hce => hsp (hce ▸ hmem)
    by_contra hcon
    simp only [Bool.not_eq_false] at hcon
    exact hc' (cleanText_onlyPlainSpace s c (List.take_subset _ _ hmem) hcon)

/-- Counterexample to Claim C6 as stated: for input `"aaa"` and limit `2` the
cleaned form has length `3 > 2`, yet the truncated result `"aa"` does not end
at a word boundary of the cleaned string (the single word is split). -/
theorem claim_C6_counterexample :
    (cleanText "aaa".toList).length > 2 ∧
    ¬ endsAtWordBoundary (normalizeOut "aaa".toList 2) (cleanText "aaa".toList) := by
  decide

/-- Witness for the amended C6: with a space inside the truncation prefix, the
result does end at a word boundary. -/
theorem claim_C6_witness :
    endsAtWordBoundary (normalizeOut "ab cd".toList 4) (cleanText "ab cd".toList) :=
  (claim_C6_word_boundary_amended "ab cd".toList 4 (by decide)).1 (by decide)
